import Mathlib

/-!
Verification of the specter spot-grid PSF core.

The numeric resampler `_xypix_interp` of `py/specter/psf/spotgrid.py` is
embedded below over exact rationals: 2D numpy arrays become `Arr2` (a shape
together with an index function), the four accumulating slice-splats become a
pointwise sum of four shifted reads, and the `reshape(...).sum(...)` rebinning
chain is embedded together with numpy's reshape size-compatibility condition
(`xypix_interp` returns `none` exactly when numpy would raise).

The shared PSF base-class contract (coordinate model, `xypix` boundary policy,
`xyrange`, `project`, `projection_matrix`, `shift_xy`) is not part of the
repository snapshot, only its tests and the spot-grid subclass are; those
operations are modelled from the specification and are marked as such in
their doc comments.
-/

namespace Specter

/-- A 2D numeric array of shape `rows × cols`; `val i j` is the entry at row
`i`, column `j`, meaningful for `i < rows` and `j < cols`. -/
structure Arr2 where
  rows : ℕ
  cols : ℕ
  val : ℕ → ℕ → ℚ

/-- `np.sum(A)`: the sum of all entries of the array. -/
def Arr2.sum (A : Arr2) : ℚ :=
  ∑ i ∈ Finset.range A.rows, ∑ j ∈ Finset.range A.cols, A.val i j

/-- Python `int(x)` conversion: truncation toward zero. -/
def pyint (x : ℚ) : ℤ := if 0 ≤ x then ⌊x⌋ else ⌈x⌉

/-- `rebin = int(self.CcdPixelSize / self.SpotPixelSize)` from `_xypix_interp`. -/
def rebinFactor (ccdPixelSize spotPixelSize : ℚ) : ℤ :=
  pyint (ccdPixelSize / spotPixelSize)

/-- `dx = xc*rebin - int(np.floor(xc*rebin))`: the fractional pixel offset of a
center coordinate, scaled by the rebin factor (spotgrid.py line 92). -/
def fracOff (c : ℚ) (rebin : ℕ) : ℚ := c * rebin - ⌊c * rebin⌋

/-- `dx = int(np.floor(xc*rebin)) - int(np.floor(xc))*rebin`: the integer
sub-bin offset of a center coordinate (spotgrid.py line 100). -/
def intOff (c : ℚ) (rebin : ℕ) : ℤ := ⌊c * rebin⌋ - ⌊c⌋ * rebin

/-- `w00=(1-dy)*(1-dx)` (spotgrid.py line 95). -/
def w00 (xc yc : ℚ) (rebin : ℕ) : ℚ := (1 - fracOff yc rebin) * (1 - fracOff xc rebin)

/-- `w10=dy*(1-dx)` (spotgrid.py line 96). -/
def w10 (xc yc : ℚ) (rebin : ℕ) : ℚ := fracOff yc rebin * (1 - fracOff xc rebin)

/-- `w01=(1-dy)*dx` (spotgrid.py line 97). -/
def w01 (xc yc : ℚ) (rebin : ℕ) : ℚ := (1 - fracOff yc rebin) * fracOff xc rebin

/-- `w11=dy*dx` (spotgrid.py line 98). -/
def w11 (xc yc : ℚ) (rebin : ℕ) : ℚ := fracOff yc rebin * fracOff xc rebin

/-- The spot image read at integer coordinates, zero outside its bounds. -/
def pixExt (spot : Arr2) (a b : ℤ) : ℚ :=
  if 0 ≤ a ∧ a < (spot.rows : ℤ) ∧ 0 ≤ b ∧ b < (spot.cols : ℤ) then
    spot.val a.toNat b.toNat
  else 0

/-- Entry `(i, j)` of `resampled_pix_spot_values` after the four weighted,
offset, accumulating slice-splats of the spot image
(spotgrid.py lines 112-116). -/
def resampledVal (spot : Arr2) (xc yc : ℚ) (rebin : ℕ) (i j : ℤ) : ℚ :=
  w00 xc yc rebin * pixExt spot (i - intOff yc rebin) (j - intOff xc rebin)
  + w10 xc yc rebin * pixExt spot (i - intOff yc rebin - 1) (j - intOff xc rebin)
  + w01 xc yc rebin * pixExt spot (i - intOff yc rebin) (j - intOff xc rebin - 1)
  + w11 xc yc rebin * pixExt spot (i - intOff yc rebin - 1) (j - intOff xc rebin - 1)

/-- `resampled_pix_spot_values = np.zeros((ny_spot+rebin, nx_spot+rebin))`
after the four accumulating splats (spotgrid.py lines 112-116). -/
def resampledArr (spot : Arr2) (xc yc : ℚ) (rebin : ℕ) : Arr2 :=
  { rows := spot.rows + rebin, cols := spot.cols + rebin,
    val := fun i j => resampledVal spot xc yc rebin (i : ℤ) (j : ℤ) }

/-- `nx_ccd = nx_spot//rebin + 1` (spotgrid.py line 78). -/
def nxCcd (spot : Arr2) (rebin : ℕ) : ℕ := spot.cols / rebin + 1

/-- `ny_ccd = ny_spot//rebin + 1` (spotgrid.py line 79). -/
def nyCcd (spot : Arr2) (rebin : ℕ) : ℕ := spot.rows / rebin + 1

/-- The fractional offset is a fractional part, so it lies in `[0, 1)`. -/
theorem fracOff_bounds (c : ℚ) (rebin : ℕ) :
    0 ≤ fracOff c rebin ∧ fracOff c rebin < 1 := by
  have hfract : fracOff c rebin = Int.fract (c * (rebin : ℚ)) := by
    rw [fracOff, Int.fract]
  rw [hfract]
  exact ⟨Int.fract_nonneg _, Int.fract_lt_one _⟩

/-- The integer sub-bin offset lies in `[0, rebin)` for a positive factor. -/
theorem intOff_bounds (c : ℚ) (rebin : ℕ) (h : 1 ≤ rebin) :
    0 ≤ intOff c rebin ∧ intOff c rebin < (rebin : ℤ) := by
  have hr0 : (0 : ℚ) ≤ (rebin : ℚ) := by positivity
  constructor
  · have hle : (⌊c⌋ * rebin : ℤ) ≤ ⌊c * rebin⌋ := by
      rw [Int.le_floor]
      push_cast
      exact mul_le_mul_of_nonneg_right (Int.floor_le c) hr0
    simp only [intOff]
    omega
  · have hrpos : (0 : ℚ) < (rebin : ℚ) := by
      exact_mod_cast Nat.lt_of_lt_of_le Nat.zero_lt_one h
    have hlt : ⌊c * rebin⌋ < (⌊c⌋ + 1) * rebin := by
      rw [Int.floor_lt]
      push_cast
      exact mul_lt_mul_of_pos_right (Int.lt_floor_add_one c) hrpos
    simp only [intOff]
    have hsum : (⌊c⌋ + 1) * (rebin : ℤ) = ⌊c⌋ * rebin + rebin := by ring
    omega

/-- C8: in the resampler, the fractional offset `c*rebin - floor(c*rebin)`
lies in `[0, 1)`, the integer sub-bin offset `floor(c*rebin) - floor(c)*rebin`
lies in `[0, rebin)`, and the four bilinear splat weights are
`w00=(1-dy)(1-dx)`, `w10=dy(1-dx)`, `w01=(1-dy)dx`, `w11=dy*dx`. -/
theorem offset_decomposition_bounds (xc yc : ℚ) (rebin : ℕ) (h : 1 ≤ rebin) :
    (0 ≤ fracOff xc rebin ∧ fracOff xc rebin < 1) ∧
    (0 ≤ fracOff yc rebin ∧ fracOff yc rebin < 1) ∧
    (0 ≤ intOff xc rebin ∧ intOff xc rebin < (rebin : ℤ)) ∧
    (0 ≤ intOff yc rebin ∧ intOff yc rebin < (rebin : ℤ)) ∧
    w00 xc yc rebin = (1 - fracOff yc rebin) * (1 - fracOff xc rebin) ∧
    w10 xc yc rebin = fracOff yc rebin * (1 - fracOff xc rebin) ∧
    w01 xc yc rebin = (1 - fracOff yc rebin) * fracOff xc rebin ∧
    w11 xc yc rebin = fracOff yc rebin * fracOff xc rebin :=
  ⟨fracOff_bounds xc rebin, fracOff_bounds yc rebin,
   intOff_bounds xc rebin h, intOff_bounds yc rebin h, rfl, rfl, rfl, rfl⟩

/-- numpy `A.reshape(p, q, r).sum(2)` on a 2D array `A`: entry `(i, j)` sums
the `r` consecutive entries of the row-major flattening of `A` starting at
flat index `(i*q + j)*r` (first reshape of spotgrid.py line 128). -/
def reshapeSum2 (A : Arr2) (p q r : ℕ) : Arr2 :=
  { rows := p, cols := q,
    val := fun i j =>
      ∑ k ∈ Finset.range r,
        A.val (((i * q + j) * r + k) / A.cols) (((i * q + j) * r + k) % A.cols) }

/-- numpy `A.reshape(p, q, r).sum(1)` on a 2D array `A`: entry `(i, c)` sums
the entries of the row-major flattening of `A` at flat indices
`(i*q + s)*r + c` for `s < q` (second reshape of spotgrid.py line 128). -/
def reshapeSum1 (A : Arr2) (p q r : ℕ) : Arr2 :=
  { rows := p, cols := r,
    val := fun i c =>
      ∑ s ∈ Finset.range q,
        A.val (((i * q + s) * r + c) / A.cols) (((i * q + s) * r + c) % A.cols) }

/-- `ccd_pix_spot_values = resampled.reshape(ny_spot+rebin, nx_ccd, rebin)
.sum(2).reshape(ny_ccd, rebin, nx_ccd).sum(1)` (spotgrid.py line 128). -/
def ccdRaw (spot : Arr2) (xc yc : ℚ) (rebin : ℕ) : Arr2 :=
  reshapeSum1
    (reshapeSum2 (resampledArr spot xc yc rebin) (spot.rows + rebin) (nxCcd spot rebin) rebin)
    (nyCcd spot rebin) rebin (nxCcd spot rebin)

/-- `ccd_pix_spot_values[ccd_pix_spot_values<0] = 0.` (spotgrid.py line 130). -/
def clipNeg (A : Arr2) : Arr2 :=
  { A with val := fun i j => if A.val i j < 0 then 0 else A.val i j }

/-- `norm = np.sum(ccd_pix_spot_values); if norm > 0: ccd_pix_spot_values /= norm`
(spotgrid.py lines 132-134). -/
def normalize (A : Arr2) : Arr2 :=
  if 0 < A.sum then { A with val := fun i j => A.val i j / A.sum } else A

/-- The result triple of `_xypix_interp`: x slice, y slice, pixel stamp, each
slice a half-open `(start, stop)` pair in detector coordinates. -/
structure Stamp where
  xslice : ℤ × ℤ
  yslice : ℤ × ℤ
  pix : Arr2

/-- `x_ccd_begin = int(np.floor(xc)) - nx_ccd//2 + 1` (spotgrid.py line 144). -/
def xBegin (spot : Arr2) (xc : ℚ) (rebin : ℕ) : ℤ :=
  ⌊xc⌋ - (nxCcd spot rebin / 2 : ℕ) + 1

/-- `y_ccd_begin = int(np.floor(yc)) - ny_ccd//2 + 1` (spotgrid.py line 145). -/
def yBegin (spot : Arr2) (yc : ℚ) (rebin : ℕ) : ℤ :=
  ⌊yc⌋ - (nyCcd spot rebin / 2 : ℕ) + 1

/-- `_xypix_interp` for a given interpolated spot image and PSF center:
the rebinned, clipped, normalized stamp together with its placement window
(spotgrid.py lines 62-178). `none` models the numpy reshape error raised
when the requested shapes do not match the element count. -/
def xypix_interp (spot : Arr2) (xc yc : ℚ) (rebin : ℕ) : Option Stamp :=
  if (spot.rows + rebin) * (spot.cols + rebin)
        = (spot.rows + rebin) * nxCcd spot rebin * rebin
      ∧ (spot.rows + rebin) * nxCcd spot rebin
        = nyCcd spot rebin * rebin * nxCcd spot rebin then
    some { xslice := (xBegin spot xc rebin, xBegin spot xc rebin + nxCcd spot rebin),
           yslice := (yBegin spot yc rebin, yBegin spot yc rebin + nyCcd spot rebin),
           pix := normalize (clipNeg (ccdRaw spot xc yc rebin)) }
  else none

/-- `_xypix_interp` with the rebin factor computed from the header pixel
scales, `rebin = int(CcdPixelSize / SpotPixelSize)` (spotgrid.py line 72). -/
def xypix_interp_scaled (ccdPixelSize spotPixelSize : ℚ) (spot : Arr2) (xc yc : ℚ) :
    Option Stamp :=
  xypix_interp spot xc yc (rebinFactor ccdPixelSize spotPixelSize).toNat

/-- A sum over `range N` of a shifted function with support in `[0, n)`
collapses to the sum over `range n`, provided the shifted support fits. -/
theorem sum_shift (N n a : ℕ) (g : ℤ → ℚ)
    (hg : ∀ t : ℤ, g t ≠ 0 → 0 ≤ t ∧ t < (n : ℤ)) (hN : a + n ≤ N) :
    ∑ i ∈ Finset.range N, g ((i : ℤ) - (a : ℤ)) = ∑ t ∈ Finset.range n, g (t : ℤ) := by
  rw [Finset.range_eq_Ico]
  have hsub : Finset.Ico a (a + n) ⊆ Finset.Ico 0 N :=
    Finset.Ico_subset_Ico (Nat.zero_le a) hN
  rw [← Finset.sum_subset hsub]
  · rw [Finset.sum_Ico_eq_sum_range]
    simp only [Nat.add_sub_cancel_left]
    rw [← Finset.range_eq_Ico]
    apply Finset.sum_congr rfl
    intro t ht
    congr 1
    push_cast
    ring
  · intro x _ hx
    by_contra hne
    have hb := hg _ hne
    rw [Finset.mem_Ico] at hx
    omega

/-- Summing `pixExt` over a box that contains the shifted copy of the spot
image recovers the total of the spot image. -/
theorem sum_pixExt_shift (spot : Arr2) (NY NX : ℕ) (ay ax : ℤ)
    (hay : 0 ≤ ay) (hax : 0 ≤ ax)
    (hY : ay.toNat + spot.rows ≤ NY) (hX : ax.toNat + spot.cols ≤ NX) :
    ∑ i ∈ Finset.range NY, ∑ j ∈ Finset.range NX,
      pixExt spot ((i : ℤ) - ay) ((j : ℤ) - ax) = spot.sum := by
  have hay' : ((ay.toNat : ℕ) : ℤ) = ay := Int.toNat_of_nonneg hay
  have hax' : ((ax.toNat : ℕ) : ℤ) = ax := Int.toNat_of_nonneg hax
  have hrow : ∀ i : ℕ,
      ∑ j ∈ Finset.range NX, pixExt spot ((i : ℤ) - ay) ((j : ℤ) - ax)
        = ∑ b ∈ Finset.range spot.cols, pixExt spot ((i : ℤ) - ay) (b : ℤ) := by
    intro i
    rw [← hax']
    apply sum_shift NX spot.cols ax.toNat
    · intro t ht
      by_contra hb
      apply ht
      rw [pixExt, if_neg]
      omega
    · exact hX
  calc
    ∑ i ∈ Finset.range NY, ∑ j ∈ Finset.range NX,
        pixExt spot ((i : ℤ) - ay) ((j : ℤ) - ax)
      = ∑ i ∈ Finset.range NY,
          ∑ b ∈ Finset.range spot.cols, pixExt spot ((i : ℤ) - ay) (b : ℤ) :=
        Finset.sum_congr rfl fun i _ => hrow i
    _ = ∑ t ∈ Finset.range spot.rows,
          ∑ b ∈ Finset.range spot.cols, pixExt spot (t : ℤ) (b : ℤ) := by
        rw [← hay']
        apply sum_shift NY spot.rows ay.toNat
          (fun t => ∑ b ∈ Finset.range spot.cols, pixExt spot t (b : ℤ))
        · intro t ht
          by_contra hb
          apply ht
          apply Finset.sum_eq_zero
          intro b _
          rw [pixExt, if_neg]
          omega
        · exact hY
    _ = spot.sum := by
        rw [Arr2.sum]
        apply Finset.sum_congr rfl
        intro t ht
        apply Finset.sum_congr rfl
        intro b hb
        rw [Finset.mem_range] at ht hb
        rw [pixExt, if_pos]
        · simp
        · refine ⟨by positivity, by exact_mod_cast ht, by positivity, by exact_mod_cast hb⟩

/-- C9: the four splat weights sum to exactly 1, so the padded working grid
`resampled_pix_spot_values` sums to the same value as the source spot image
(conservation of intensity before clipping and normalization). -/
theorem splat_weights_conserve (spot : Arr2) (xc yc : ℚ) (rebin : ℕ) (h : 1 ≤ rebin) :
    w00 xc yc rebin + w10 xc yc rebin + w01 xc yc rebin + w11 xc yc rebin = 1 ∧
    (resampledArr spot xc yc rebin).sum = spot.sum := by
  have hwsum : w00 xc yc rebin + w10 xc yc rebin + w01 xc yc rebin + w11 xc yc rebin = 1 := by
    rw [w00, w10, w01, w11]; ring
  refine ⟨hwsum, ?_⟩
  obtain ⟨⟨hx0, hx1⟩, ⟨hy0, hy1⟩⟩ :
      (0 ≤ intOff xc rebin ∧ intOff xc rebin < (rebin : ℤ)) ∧
      (0 ≤ intOff yc rebin ∧ intOff yc rebin < (rebin : ℤ)) :=
    ⟨intOff_bounds xc rebin h, intOff_bounds yc rebin h⟩
  set dxI := intOff xc rebin with hdx
  set dyI := intOff yc rebin with hdy
  have hS : ∀ ay ax : ℤ, 0 ≤ ay → 0 ≤ ax → ay ≤ (rebin : ℤ) → ax ≤ (rebin : ℤ) →
      ∑ i ∈ Finset.range (spot.rows + rebin), ∑ j ∈ Finset.range (spot.cols + rebin),
        pixExt spot ((i : ℤ) - ay) ((j : ℤ) - ax) = spot.sum := by
    intro ay ax hay hax hayr haxr
    apply sum_pixExt_shift spot _ _ ay ax hay hax
    · omega
    · omega
  have e1 := hS dyI dxI hy0 hx0 (le_of_lt hy1) (le_of_lt hx1)
  have e2 := hS (dyI + 1) dxI (by omega) hx0 (by omega) (le_of_lt hx1)
  have e3 := hS dyI (dxI + 1) hy0 (by omega) (le_of_lt hy1) (by omega)
  have e4 := hS (dyI + 1) (dxI + 1) (by omega) (by omega) (by omega) (by omega)
  rw [Arr2.sum]
  simp only [resampledArr, resampledVal]
  have expand : ∀ i j : ℕ,
      w00 xc yc rebin * pixExt spot ((i : ℤ) - dyI) ((j : ℤ) - dxI)
        + w10 xc yc rebin * pixExt spot ((i : ℤ) - dyI - 1) ((j : ℤ) - dxI)
        + w01 xc yc rebin * pixExt spot ((i : ℤ) - dyI) ((j : ℤ) - dxI - 1)
        + w11 xc yc rebin * pixExt spot ((i : ℤ) - dyI - 1) ((j : ℤ) - dxI - 1)
      = w00 xc yc rebin * pixExt spot ((i : ℤ) - dyI) ((j : ℤ) - dxI)
        + w10 xc yc rebin * pixExt spot ((i : ℤ) - (dyI + 1)) ((j : ℤ) - dxI)
        + w01 xc yc rebin * pixExt spot ((i : ℤ) - dyI) ((j : ℤ) - (dxI + 1))
        + w11 xc yc rebin * pixExt spot ((i : ℤ) - (dyI + 1)) ((j : ℤ) - (dxI + 1)) := by
    intro i j
    have a1 : (i : ℤ) - dyI - 1 = (i : ℤ) - (dyI + 1) := by ring
    have a2 : (j : ℤ) - dxI - 1 = (j : ℤ) - (dxI + 1) := by ring
    rw [a1, a2]
  calc
    ∑ i ∈ Finset.range (spot.rows + rebin), ∑ j ∈ Finset.range (spot.cols + rebin),
        (w00 xc yc rebin * pixExt spot ((i : ℤ) - dyI) ((j : ℤ) - dxI)
          + w10 xc yc rebin * pixExt spot ((i : ℤ) - dyI - 1) ((j : ℤ) - dxI)
          + w01 xc yc rebin * pixExt spot ((i : ℤ) - dyI) ((j : ℤ) - dxI - 1)
          + w11 xc yc rebin * pixExt spot ((i : ℤ) - dyI - 1) ((j : ℤ) - dxI - 1))
      = w00 xc yc rebin *
          (∑ i ∈ Finset.range (spot.rows + rebin), ∑ j ∈ Finset.range (spot.cols + rebin),
            pixExt spot ((i : ℤ) - dyI) ((j : ℤ) - dxI))
        + w10 xc yc rebin *
          (∑ i ∈ Finset.range (spot.rows + rebin), ∑ j ∈ Finset.range (spot.cols + rebin),
            pixExt spot ((i : ℤ) - (dyI + 1)) ((j : ℤ) - dxI))
        + w01 xc yc rebin *
          (∑ i ∈ Finset.range (spot.rows + rebin), ∑ j ∈ Finset.range (spot.cols + rebin),
            pixExt spot ((i : ℤ) - dyI) ((j : ℤ) - (dxI + 1)))
        + w11 xc yc rebin *
          (∑ i ∈ Finset.range (spot.rows + rebin), ∑ j ∈ Finset.range (spot.cols + rebin),
            pixExt spot ((i : ℤ) - (dyI + 1)) ((j : ℤ) - (dxI + 1))) := by
        simp only [Finset.mul_sum, ← Finset.sum_add_distrib]
        apply Finset.sum_congr rfl
        intro i _
        apply Finset.sum_congr rfl
        intro j _
        rw [expand i j]
    _ = spot.sum := by
        rw [e1, e2, e3, e4]
        rw [← add_mul, ← add_mul, ← add_mul, hwsum, one_mul]

/-- Witness for C9 at a concrete 1×1 spot image with `rebin = 2`. -/
theorem splat_weights_conserve_witness :
    1 ≤ 2 ∧
    (w00 (5/2) (1/3) 2 + w10 (5/2) (1/3) 2 + w01 (5/2) (1/3) 2 + w11 (5/2) (1/3) 2 = 1 ∧
     (resampledArr ⟨1, 1, fun _ _ => 3⟩ (5/2) (1/3) 2).sum = (Arr2.mk 1 1 fun _ _ => 3).sum) :=
  ⟨by norm_num, splat_weights_conserve ⟨1, 1, fun _ _ => 3⟩ (5/2) (1/3) 2 (by norm_num)⟩

/-- The `normalize` branch never changes the array shape. -/
theorem normalize_rows (A : Arr2) : (normalize A).rows = A.rows := by
  rw [normalize]; split <;> rfl

/-- The `normalize` branch never changes the array shape. -/
theorem normalize_cols (A : Arr2) : (normalize A).cols = A.cols := by
  rw [normalize]; split <;> rfl

/-- Dividing every entry by a positive total makes the total exactly 1. -/
theorem normalize_sum_pos (A : Arr2) (h : 0 < A.sum) : (normalize A).sum = 1 := by
  rw [normalize, if_pos h]
  show (∑ i ∈ Finset.range A.rows, ∑ j ∈ Finset.range A.cols, A.val i j / A.sum) = 1
  have hsplit : (∑ i ∈ Finset.range A.rows, ∑ j ∈ Finset.range A.cols, A.val i j / A.sum)
      = (∑ i ∈ Finset.range A.rows, ∑ j ∈ Finset.range A.cols, A.val i j) / A.sum := by
    rw [Finset.sum_div]
    exact Finset.sum_congr rfl fun i _ => (Finset.sum_div _ _ _).symm
  rw [hsplit]
  exact div_self (ne_of_gt h)

/-- After clipping, every entry is non-negative. -/
theorem clipNeg_nonneg (A : Arr2) (i j : ℕ) : 0 ≤ (clipNeg A).val i j := by
  rw [clipNeg]
  dsimp only
  split
  · exact le_refl 0
  · linarith [not_lt.mp (by assumption : ¬ A.val i j < 0)]

/-- A non-negative array whose total is at most 0 is zero on its extent. -/
theorem arr_sum_zero (A : Arr2) (hpos : ∀ i j, 0 ≤ A.val i j) (hs : A.sum ≤ 0) :
    ∀ i j, i < A.rows → j < A.cols → A.val i j = 0 := by
  have hz : A.sum = 0 :=
    le_antisymm hs (Finset.sum_nonneg fun i _ => Finset.sum_nonneg fun j _ => hpos i j)
  intro i j hi hj
  rw [Arr2.sum] at hz
  have hrow := (Finset.sum_eq_zero_iff_of_nonneg
    (fun i _ => Finset.sum_nonneg fun j _ => hpos i j)).mp hz i (Finset.mem_range.mpr hi)
  exact (Finset.sum_eq_zero_iff_of_nonneg (fun j _ => hpos i j)).mp hrow j
    (Finset.mem_range.mpr hj)

/-- C2: after clipping negatives to zero, the resampler normalizes the stamp
to sum to exactly 1 when the clipped sum is strictly positive; when the sum is
at most 0 it skips normalization and the stamp is all zero, with no error. -/
theorem xypix_normalization (spot : Arr2) (xc yc : ℚ) (rebin : ℕ) :
    (0 < (clipNeg (ccdRaw spot xc yc rebin)).sum →
      (normalize (clipNeg (ccdRaw spot xc yc rebin))).sum = 1) ∧
    ((clipNeg (ccdRaw spot xc yc rebin)).sum ≤ 0 →
      normalize (clipNeg (ccdRaw spot xc yc rebin)) = clipNeg (ccdRaw spot xc yc rebin) ∧
      ∀ i j, i < (clipNeg (ccdRaw spot xc yc rebin)).rows →
        j < (clipNeg (ccdRaw spot xc yc rebin)).cols →
        (normalize (clipNeg (ccdRaw spot xc yc rebin))).val i j = 0) := by
  constructor
  · exact normalize_sum_pos _
  · intro hs
    have hskip : normalize (clipNeg (ccdRaw spot xc yc rebin))
        = clipNeg (ccdRaw spot xc yc rebin) := by
      rw [normalize, if_neg (not_lt.mpr hs)]
    refine ⟨hskip, ?_⟩
    intro i j hi hj
    rw [hskip]
    exact arr_sum_zero _ (clipNeg_nonneg _) hs i j hi hj

/-- The concrete 1×1 spot image used by the witnesses. -/
def spotW : Arr2 := ⟨1, 1, fun _ _ => 1⟩

/-- Witness for C2: at the concrete input the clipped sum is positive and the
normalized stamp sums to exactly 1. -/
theorem xypix_normalization_witness :
    0 < (clipNeg (ccdRaw spotW 0 0 1)).sum ∧
    (normalize (clipNeg (ccdRaw spotW 0 0 1))).sum = 1 :=
  have h : 0 < (clipNeg (ccdRaw spotW 0 0 1)).sum := by
    simp only [spotW, clipNeg, ccdRaw, reshapeSum1, reshapeSum2, resampledArr, resampledVal,
      Arr2.sum, nyCcd, nxCcd, w00, w10, w01, w11, fracOff, intOff, pixExt,
      Finset.sum_range_succ, Finset.sum_range_zero]
    norm_num
  ⟨h, (xypix_normalization spotW 0 0 1).1 h⟩

/-- C3: whenever `_xypix_interp` returns a triple `(xslice, yslice, stamp)`,
the stamp's row count equals the y window's height and its column count equals
the x window's width. -/
theorem xypix_stamp_window_shapes (spot : Arr2) (xc yc : ℚ) (rebin : ℕ) (st : Stamp)
    (h : xypix_interp spot xc yc rebin = some st) :
    (st.pix.rows : ℤ) = st.yslice.2 - st.yslice.1 ∧
    (st.pix.cols : ℤ) = st.xslice.2 - st.xslice.1 := by
  rw [xypix_interp] at h
  split_ifs at h with hcond
  · injection h with h'
    subst h'
    dsimp only
    constructor
    · rw [normalize_rows]
      show ((nyCcd spot rebin : ℕ) : ℤ) = yBegin spot yc rebin + nyCcd spot rebin - yBegin spot yc rebin
      ring
    · rw [normalize_cols]
      show ((nxCcd spot rebin : ℕ) : ℤ) = xBegin spot xc rebin + nxCcd spot rebin - xBegin spot xc rebin
      ring

/-- The concrete stamp returned by `_xypix_interp` on the witness input. -/
def stampW : Stamp :=
  { xslice := (xBegin spotW 0 1, xBegin spotW 0 1 + nxCcd spotW 1),
    yslice := (yBegin spotW 0 1, yBegin spotW 0 1 + nyCcd spotW 1),
    pix := normalize (clipNeg (ccdRaw spotW 0 0 1)) }

/-- Witness for C3: the concrete returned stamp has the shape of its window. -/
theorem xypix_stamp_window_shapes_witness :
    (stampW.pix.rows : ℤ) = stampW.yslice.2 - stampW.yslice.1 ∧
    (stampW.pix.cols : ℤ) = stampW.xslice.2 - stampW.xslice.1 :=
  xypix_stamp_window_shapes spotW 0 0 1 stampW rfl

/-- The reshape size conditions of the rebinning chain hold exactly when the
rebin factor divides both spot image dimensions. -/
theorem reshape_cond_iff (spot : Arr2) (rebin : ℕ) (h : 1 ≤ rebin) :
    ((spot.rows + rebin) * (spot.cols + rebin)
        = (spot.rows + rebin) * nxCcd spot rebin * rebin
      ∧ (spot.rows + rebin) * nxCcd spot rebin
        = nyCcd spot rebin * rebin * nxCcd spot rebin)
    ↔ (rebin ∣ spot.cols ∧ rebin ∣ spot.rows) := by
  have key : ∀ C r : ℕ, 1 ≤ r → (C + r = (C / r + 1) * r ↔ r ∣ C) := by
    intro C r hr
    rw [add_mul, one_mul]
    constructor
    · intro he
      have hCr : C = C / r * r := by omega
      exact ⟨C / r, by rw [mul_comm]; exact hCr⟩
    · intro hd
      rw [Nat.div_mul_cancel hd]
  have hR : 0 < spot.rows + rebin := by omega
  have hnx : 0 < nxCcd spot rebin := Nat.succ_pos _
  have c1 : ((spot.rows + rebin) * (spot.cols + rebin)
      = (spot.rows + rebin) * nxCcd spot rebin * rebin) ↔ rebin ∣ spot.cols := by
    rw [Nat.mul_assoc, nxCcd]
    constructor
    · intro he
      exact (key spot.cols rebin h).mp (Nat.eq_of_mul_eq_mul_left hR he)
    · intro hd
      exact congrArg _ ((key spot.cols rebin h).mpr hd)
  have c2 : ((spot.rows + rebin) * nxCcd spot rebin
      = nyCcd spot rebin * rebin * nxCcd spot rebin) ↔ rebin ∣ spot.rows := by
    rw [nyCcd]
    constructor
    · intro he
      exact (key spot.rows rebin h).mp (Nat.eq_of_mul_eq_mul_right hnx he)
    · intro hd
      rw [(key spot.rows rebin h).mpr hd]
  rw [c1, c2]

/-- C10: the rebin factor is the integer truncation of the pixel-scale
ratio, and `_xypix_interp` returns a stamp (rather than raising a numpy
reshape error) exactly when that factor divides both spot image dimensions. -/
theorem rebin_reshape_divisibility (ccd spotsz : ℚ) (spot : Arr2) (xc yc : ℚ)
    (h0 : 0 < spotsz) (h1 : spotsz ≤ ccd) :
    rebinFactor ccd spotsz = ⌊ccd / spotsz⌋ ∧
    1 ≤ (rebinFactor ccd spotsz).toNat ∧
    ((xypix_interp_scaled ccd spotsz spot xc yc).isSome = true ↔
      ((rebinFactor ccd spotsz).toNat ∣ spot.cols ∧
       (rebinFactor ccd spotsz).toNat ∣ spot.rows)) := by
  have hdiv : (1 : ℚ) ≤ ccd / spotsz := (one_le_div h0).mpr h1
  have htr : rebinFactor ccd spotsz = ⌊ccd / spotsz⌋ := by
    rw [rebinFactor, pyint, if_pos (by linarith)]
  have hfl : (1 : ℤ) ≤ ⌊ccd / spotsz⌋ := Int.le_floor.mpr (by exact_mod_cast hdiv)
  have hone : 1 ≤ (rebinFactor ccd spotsz).toNat := by
    rw [htr]; omega
  refine ⟨htr, hone, ?_⟩
  rw [xypix_interp_scaled, xypix_interp]
  split_ifs with hcond
  · simp only [Option.isSome_some, true_iff]
    exact (reshape_cond_iff spot _ hone).mp hcond
  · simp only [Option.isSome_none, Bool.false_eq_true, false_iff]
    intro hd
    exact hcond ((reshape_cond_iff spot _ hone).mpr hd)

/-- Witness for C10: with pixel scales 2 and 1 the rebin factor is 2, and the
2×2 witness spot image is divisible, so a stamp is returned. -/
theorem rebin_reshape_divisibility_witness :
    (0 : ℚ) < 1 ∧ (1 : ℚ) ≤ 2 ∧
    (rebinFactor 2 1 = ⌊(2 : ℚ) / 1⌋ ∧
     1 ≤ (rebinFactor 2 1).toNat ∧
     ((xypix_interp_scaled 2 1 ⟨2, 2, fun _ _ => 1⟩ 0 0).isSome = true ↔
       ((rebinFactor 2 1).toNat ∣ (2 : ℕ) ∧ (rebinFactor 2 1).toNat ∣ (2 : ℕ)))) :=
  ⟨by norm_num, by norm_num,
   rebin_reshape_divisibility 2 1 ⟨2, 2, fun _ _ => 1⟩ 0 0 (by norm_num) (by norm_num)⟩

/-- Witness for C8 at the concrete input `xc = 5/2`, `yc = -7/3`, `rebin = 2`. -/
theorem offset_decomposition_bounds_witness :
    1 ≤ 2 ∧
    ((0 ≤ fracOff (5/2) 2 ∧ fracOff (5/2) 2 < 1) ∧
     (0 ≤ fracOff (-7/3) 2 ∧ fracOff (-7/3) 2 < 1) ∧
     (0 ≤ intOff (5/2) 2 ∧ intOff (5/2) 2 < (2 : ℤ)) ∧
     (0 ≤ intOff (-7/3) 2 ∧ intOff (-7/3) 2 < (2 : ℤ)) ∧
     w00 (5/2) (-7/3) 2 = (1 - fracOff (-7/3) 2) * (1 - fracOff (5/2) 2) ∧
     w10 (5/2) (-7/3) 2 = fracOff (-7/3) 2 * (1 - fracOff (5/2) 2) ∧
     w01 (5/2) (-7/3) 2 = (1 - fracOff (-7/3) 2) * fracOff (5/2) 2 ∧
     w11 (5/2) (-7/3) 2 = fracOff (-7/3) 2 * fracOff (5/2) 2) :=
  ⟨by norm_num, offset_decomposition_bounds (5/2) (-7/3) 2 (by norm_num)⟩

/-- A detector-frame integer bounding box `(xmin, xmax, ymin, ymax)` with
half-open `[min, max)` extents. -/
structure Box where
  xmin : ℤ
  xmax : ℤ
  ymin : ℤ
  ymax : ℤ

/-- Modelled from the spec: the shared PSF base-class contract (sections 2-4).
The base class source (coordinate model, `xypix` boundary policy, `xyrange`,
`project`, `projection_matrix`, `shift_xy`) is not in the repository snapshot;
only `spotgrid.py` and the tests are. Fields: detector dimensions, wavelength
coverage, the raw per-(fiber, wavelength) centroids, the persistent additive
shift offsets, and the variant-specific unclipped stamp generator. -/
structure PSFModel where
  nspec : ℕ
  npix_x : ℕ
  npix_y : ℕ
  wmin : ℚ
  wmax : ℚ
  rawX : ℕ → ℚ → ℚ
  rawY : ℕ → ℚ → ℚ
  xoffset : ℚ
  yoffset : ℚ
  stampFor : ℕ → ℚ → Stamp

/-- Modelled from the spec: `x(ispec, wavelength)` is the raw centroid plus
the persistent offset (sections 4.3 and 9). -/
def PSFModel.x (p : PSFModel) (i : ℕ) (w : ℚ) : ℚ := p.rawX i w + p.xoffset

/-- Modelled from the spec: `y(ispec, wavelength)` is the raw centroid plus
the persistent offset (sections 4.3 and 9). -/
def PSFModel.y (p : PSFModel) (i : ℕ) (w : ℚ) : ℚ := p.rawY i w + p.yoffset

/-- Modelled from the spec: `shift_xy(dx, dy)` adds `(dx, dy)` to the
persistent offset applied to all subsequent centroid queries (section 4.3). -/
def PSFModel.shift_xy (p : PSFModel) (dx dy : ℚ) : PSFModel :=
  { p with xoffset := p.xoffset + dx, yoffset := p.yoffset + dy }

/-- C7: `shift_xy(dx, dy)` adds exactly `dx` to every subsequently computed x
centroid and exactly `dy` to every y centroid, for all fibers and wavelengths,
and two shifts compose additively. -/
theorem shift_xy_additive (p : PSFModel) (dx dy dx2 dy2 : ℚ) (i : ℕ) (w : ℚ) :
    (p.shift_xy dx dy).x i w = p.x i w + dx ∧
    (p.shift_xy dx dy).y i w = p.y i w + dy ∧
    (p.shift_xy dx dy).shift_xy dx2 dy2 = p.shift_xy (dx + dx2) (dy + dy2) := by
  refine ⟨?_, ?_, ?_⟩
  · rw [PSFModel.x, PSFModel.x, PSFModel.shift_xy]; ring
  · rw [PSFModel.y, PSFModel.y, PSFModel.shift_xy]; ring
  · rw [PSFModel.shift_xy, PSFModel.shift_xy, PSFModel.shift_xy]
    simp only [PSFModel.mk.injEq, and_true, true_and]
    constructor <;> ring

/-- The empty `(0, 0)`-shaped stamp with the given placement window. -/
def emptyStamp (xsl ysl : ℤ × ℤ) : Stamp := ⟨xsl, ysl, ⟨0, 0, fun _ _ => 0⟩⟩

/-- Modelled from the spec: the `xypix` wavelength-boundary policy
(section 4.4). Below `wmin` both windows collapse to `(0, 0)`; above `wmax`
the x window collapses to `(0, 0)` and the y window to
`(npix_y, npix_y)`; in range the variant-specific generator is used. -/
def PSFModel.xypix (p : PSFModel) (i : ℕ) (w : ℚ) : Stamp :=
  if w < p.wmin then emptyStamp (0, 0) (0, 0)
  else if p.wmax < w then emptyStamp (0, 0) ((p.npix_y : ℤ), (p.npix_y : ℤ))
  else p.stampFor i w

/-- C4: a wavelength strictly below `wmin` yields `xslice=(0,0)`,
`yslice=(0,0)` and a `(0,0)` stamp; one strictly above `wmax` yields
`xslice=(0,0)`, `yslice=(npix_y,npix_y)` and a `(0,0)` stamp; neither case
raises an error. The wavelength coverage is assumed well formed
(`wmin ≤ wmax`). -/
theorem xypix_waverange_boundary (p : PSFModel) (i : ℕ) (w : ℚ) (hwf : p.wmin ≤ p.wmax) :
    (w < p.wmin →
      (p.xypix i w).xslice = (0, 0) ∧ (p.xypix i w).yslice = (0, 0) ∧
      (p.xypix i w).pix.rows = 0 ∧ (p.xypix i w).pix.cols = 0) ∧
    (p.wmax < w →
      (p.xypix i w).xslice = (0, 0) ∧
      (p.xypix i w).yslice = ((p.npix_y : ℤ), (p.npix_y : ℤ)) ∧
      (p.xypix i w).pix.rows = 0 ∧ (p.xypix i w).pix.cols = 0) := by
  constructor
  · intro hlo
    rw [PSFModel.xypix, if_pos hlo]
    exact ⟨rfl, rfl, rfl, rfl⟩
  · intro hhi
    have hnlo : ¬ w < p.wmin := not_lt.mpr (le_trans hwf (le_of_lt hhi))
    rw [PSFModel.xypix, if_neg hnlo, if_pos hhi]
    exact ⟨rfl, rfl, rfl, rfl⟩

/-- The concrete PSF model used by the witnesses: one fiber, wavelength
coverage `[0, 1]`, a 4×7 detector, and a constant 1×1 stamp generator. -/
def psfW : PSFModel :=
  { nspec := 1, npix_x := 4, npix_y := 7, wmin := 0, wmax := 1,
    rawX := fun _ _ => 1, rawY := fun _ _ => 2, xoffset := 0, yoffset := 0,
    stampFor := fun _ _ => ⟨(3, 4), (5, 6), ⟨1, 1, fun _ _ => 1⟩⟩ }

/-- Witness for C4 at wavelengths one unit below `wmin` and above `wmax`. -/
theorem xypix_waverange_boundary_witness :
    ((psfW.xypix 0 (-1)).xslice = (0, 0) ∧ (psfW.xypix 0 (-1)).yslice = (0, 0) ∧
     (psfW.xypix 0 (-1)).pix.rows = 0 ∧ (psfW.xypix 0 (-1)).pix.cols = 0) ∧
    ((psfW.xypix 0 2).xslice = (0, 0) ∧
     (psfW.xypix 0 2).yslice = ((psfW.npix_y : ℤ), (psfW.npix_y : ℤ)) ∧
     (psfW.xypix 0 2).pix.rows = 0 ∧ (psfW.xypix 0 2).pix.cols = 0) :=
  ⟨(xypix_waverange_boundary psfW 0 (-1) (by norm_num [psfW])).1 (by norm_num [psfW]),
   (xypix_waverange_boundary psfW 0 2 (by norm_num [psfW])).2 (by norm_num [psfW])⟩

/-- Modelled from the spec: the list of unclipped `xypix` windows over the
fiber range `[s0, s1)` and the given wavelength sequence, skipping pairs whose
stamp is the empty `(0, 0)` stamp (section 4.4). -/
def windowList (p : PSFModel) (s0 s1 : ℕ) (waves : List ℚ) :
    List ((ℤ × ℤ) × (ℤ × ℤ)) :=
  ((List.range (s1 - s0)).map fun t => s0 + t).flatMap fun i =>
    waves.filterMap fun w =>
      if (p.xypix i w).pix.rows = 0 ∧ (p.xypix i w).pix.cols = 0 then none
      else some ((p.xypix i w).xslice, (p.xypix i w).yslice)

/-- Extend a bounding box to cover one more window. -/
def boxJoin (v : (ℤ × ℤ) × (ℤ × ℤ)) (b : Box) : Box :=
  ⟨min v.1.1 b.xmin, max v.1.2 b.xmax, min v.2.1 b.ymin, max v.2.2 b.ymax⟩

/-- The tight union of a list of windows (the empty list gives a zero box). -/
def boxUnion : List ((ℤ × ℤ) × (ℤ × ℤ)) → Box
  | [] => ⟨0, 0, 0, 0⟩
  | [v] => ⟨v.1.1, v.1.2, v.2.1, v.2.2⟩
  | v :: rest => boxJoin v (boxUnion rest)

/-- A box contains a window when the window's x and y extents lie inside. -/
def Box.containsWindow (b : Box) (v : (ℤ × ℤ) × (ℤ × ℤ)) : Prop :=
  b.xmin ≤ v.1.1 ∧ v.1.2 ≤ b.xmax ∧ b.ymin ≤ v.2.1 ∧ v.2.2 ≤ b.ymax

/-- Modelled from the spec: `xyrange(specRange, waveRange)` — the tight-union
integer bounding box of the unclipped `xypix` windows over the Cartesian
product of the fiber range and the wavelength sequence (section 4.4). -/
def PSFModel.xyrange (p : PSFModel) (specRange : ℕ × ℕ) (waves : List ℚ) : Box :=
  boxUnion (windowList p specRange.1 specRange.2 waves)

/-- Modelled from the spec: a scalar `ispec` argument to `xyrange` is treated
as the single-fiber range `(ispec, ispec+1)` (section 4.4). -/
def PSFModel.xyrangeScalar (p : PSFModel) (i : ℕ) (waves : List ℚ) : Box :=
  p.xyrange (i, i + 1) waves

/-- The union box of a list of windows contains every window in the list. -/
theorem boxUnion_contains : ∀ (l : List ((ℤ × ℤ) × (ℤ × ℤ))),
    ∀ v ∈ l, (boxUnion l).containsWindow v := by
  intro l
  induction l with
  | nil => intro v hv; cases hv
  | cons hd rest ih =>
    intro v hv
    cases rest with
    | nil =>
      have hv' : v = hd := by
        cases hv with
        | head => rfl
        | tail _ h => cases h
      subst hv'
      exact ⟨le_refl _, le_refl _, le_refl _, le_refl _⟩
    | cons hd2 rest2 =>
      rw [show boxUnion (hd :: hd2 :: rest2) = boxJoin hd (boxUnion (hd2 :: rest2)) from rfl]
      cases hv with
      | head =>
        exact ⟨min_le_left _ _, le_max_left _ _, min_le_left _ _, le_max_left _ _⟩
      | tail _ hmem =>
        obtain ⟨h1, h2, h3, h4⟩ := ih v hmem
        exact ⟨le_trans (min_le_right _ _) h1, le_trans h2 (le_max_right _ _),
          le_trans (min_le_right _ _) h3, le_trans h4 (le_max_right _ _)⟩

/-- C5: the box returned by `xyrange` contains the unclipped `xypix` window of
every (fiber, wavelength) pair in the Cartesian product of the ranges, pairs
with an empty `(0, 0)` stamp excepted, and a scalar fiber argument yields the
same box as the range `(ispec, ispec+1)`. -/
theorem xyrange_contains_windows (p : PSFModel) (s0 s1 : ℕ) (waves : List ℚ)
    (i : ℕ) (w : ℚ) (hi0 : s0 ≤ i) (hi1 : i < s1) (hw : w ∈ waves)
    (hne : ¬((p.xypix i w).pix.rows = 0 ∧ (p.xypix i w).pix.cols = 0)) :
    (p.xyrange (s0, s1) waves).containsWindow
      ((p.xypix i w).xslice, (p.xypix i w).yslice) ∧
    ∀ (j : ℕ) (ws : List ℚ), p.xyrangeScalar j ws = p.xyrange (j, j + 1) ws := by
  refine ⟨?_, fun j ws => rfl⟩
  apply boxUnion_contains
  rw [windowList, List.mem_flatMap]
  refine ⟨i, ?_, ?_⟩
  · rw [List.mem_map]
    exact ⟨i - s0, by rw [List.mem_range]; omega, by omega⟩
  · rw [List.mem_filterMap]
    exact ⟨w, hw, by rw [if_neg hne]⟩

/-- Witness for C5 on the concrete model at an in-range wavelength. -/
theorem xyrange_contains_windows_witness :
    (psfW.xyrange (0, 1) [1/2]).containsWindow
      ((psfW.xypix 0 (1/2)).xslice, (psfW.xypix 0 (1/2)).yslice) :=
  (xyrange_contains_windows psfW 0 1 [1/2] 0 (1/2) (by norm_num) (by norm_num)
    (by norm_num [List.mem_singleton])
    (by norm_num [psfW, PSFModel.xypix, emptyStamp])).1

/-- Modelled from the spec: the contribution of the `xypix` stamp of fiber
`i` at wavelength `w` to global detector pixel `(gy, gx)` — the stamp entry
when the pixel lies inside the stamp's placement window, else zero
(section 4.5 accumulation). -/
def PSFModel.stampValAt (p : PSFModel) (i : ℕ) (w : ℚ) (gy gx : ℤ) : ℚ :=
  if (p.xypix i w).yslice.1 ≤ gy ∧ gy < (p.xypix i w).yslice.2
      ∧ (p.xypix i w).xslice.1 ≤ gx ∧ gx < (p.xypix i w).xslice.2 then
    (p.xypix i w).pix.val (gy - (p.xypix i w).yslice.1).toNat
      (gx - (p.xypix i w).xslice.1).toNat
  else 0

/-- Modelled from the spec: `project(photons, wavelengths, specmin, xyrange)`
(section 4.5) — at each (fiber, wavelength) sample the `xypix` stamp is scaled
by the photon count and accumulated additively into the windowed output image
of shape `(ymax-ymin, xmax-xmin)`; portions outside the window are dropped. -/
def PSFModel.project (p : PSFModel) (photons : ℕ → ℕ → ℚ) (nspecSub nw : ℕ)
    (waves : ℕ → ℚ) (specmin : ℕ) (b : Box) : Arr2 :=
  { rows := (b.ymax - b.ymin).toNat, cols := (b.xmax - b.xmin).toNat,
    val := fun r c =>
      ∑ f ∈ Finset.range nspecSub, ∑ k ∈ Finset.range nw,
        photons f k * p.stampValAt (specmin + f) (waves k)
          (b.ymin + (r : ℤ)) (b.xmin + (c : ℤ)) }

/-- Modelled from the spec: un-windowed `project`, accumulating over the full
detector, output shape `(npix_y, npix_x)` (section 4.5). -/
def PSFModel.projectFull (p : PSFModel) (photons : ℕ → ℕ → ℚ) (nspecSub nw : ℕ)
    (waves : ℕ → ℚ) (specmin : ℕ) : Arr2 :=
  p.project photons nspecSub nw waves specmin ⟨0, (p.npix_x : ℤ), 0, (p.npix_y : ℤ)⟩

/-- C6: the windowed projection equals the corresponding slice of the
un-windowed projection, exactly element-wise: entry `(r, c)` of
`project(phot, ww, xyrange=(xmin,xmax,ymin,ymax))` equals entry
`(ymin+r, xmin+c)` of `project(phot, ww)`. -/
theorem project_subimage (p : PSFModel) (photons : ℕ → ℕ → ℚ) (nspecSub nw : ℕ)
    (waves : ℕ → ℚ) (specmin : ℕ) (b : Box) (r c : ℕ)
    (hx0 : 0 ≤ b.xmin) (hy0 : 0 ≤ b.ymin)
    (_hr : r < (b.ymax - b.ymin).toNat) (_hc : c < (b.xmax - b.xmin).toNat) :
    (p.project photons nspecSub nw waves specmin b).val r c
      = (p.projectFull photons nspecSub nw waves specmin).val
          (b.ymin + (r : ℤ)).toNat (b.xmin + (c : ℤ)).toNat := by
  rw [PSFModel.projectFull, PSFModel.project, PSFModel.project]
  dsimp only
  apply Finset.sum_congr rfl
  intro f _
  apply Finset.sum_congr rfl
  intro k _
  congr 1
  rw [Int.toNat_of_nonneg (by positivity), Int.toNat_of_nonneg (by positivity)]
  rw [zero_add, zero_add]

/-- Witness for C6 on the concrete model with the window `(3, 4, 5, 6)`. -/
theorem project_subimage_witness :
    (psfW.project (fun _ _ => 2) 1 1 (fun _ => 1/2) 0 ⟨3, 4, 5, 6⟩).val 0 0
      = (psfW.projectFull (fun _ _ => 2) 1 1 (fun _ => 1/2) 0).val
          ((5 : ℤ) + (0 : ℕ)).toNat ((3 : ℤ) + (0 : ℕ)).toNat :=
  project_subimage psfW (fun _ _ => 2) 1 1 (fun _ => 1/2) 0 ⟨3, 4, 5, 6⟩ 0 0
    (by norm_num) (by norm_num) (by norm_num) (by norm_num)

/-- A sum over `range (m*n)` regrouped as a double sum over the row-major
decomposition `j = f*n + k`. -/
theorem sum_range_mul (m n : ℕ) (g : ℕ → ℚ) :
    ∑ j ∈ Finset.range (m * n), g j
      = ∑ f ∈ Finset.range m, ∑ k ∈ Finset.range n, g (f * n + k) := by
  induction m with
  | zero => simp
  | succ m ih =>
    rw [Finset.sum_range_succ, ← ih, Nat.succ_mul]
    rw [Finset.range_eq_Ico, ← Finset.sum_Ico_consecutive g (Nat.zero_le (m * n))
      (Nat.le_add_right (m * n) n)]
    rw [← Finset.range_eq_Ico, Finset.sum_Ico_eq_sum_range]
    simp only [Nat.add_sub_cancel_left]

/-- Modelled from the spec: `projection_matrix(specRange, wavelengths,
xyrange)` (section 4.5) — the sparse operator whose column `f*nw + k` holds
the flattened, window-clipped stamp of fiber `specmin + f` at wavelength
sample `k`; entry `(row, col)` addresses flattened window pixel `row` and
flattened (fiber, wavelength) sample `col`. -/
def PSFModel.projection_matrix (p : PSFModel) (specmin nw : ℕ) (waves : ℕ → ℚ)
    (b : Box) (row col : ℕ) : ℚ :=
  p.stampValAt (specmin + col / nw) (waves (col % nw))
    (b.ymin + ((row / (b.xmax - b.xmin).toNat : ℕ) : ℤ))
    (b.xmin + ((row % (b.xmax - b.xmin).toNat : ℕ) : ℤ))

/-- Sparse-operator application `A.dot(v)` over `n` columns, at one row. -/
def matVec (A : ℕ → ℕ → ℚ) (n : ℕ) (v : ℕ → ℚ) (row : ℕ) : ℚ :=
  ∑ j ∈ Finset.range n, A row j * v j

/-- C1: for the same window, wavelengths and fiber range, the sparse operator
built by `projection_matrix`, applied to the row-major flattened photon
vector and reshaped to the window (entry `(r, c)` is flat row `r*nx + c`),
equals `project` exactly, element for element. -/
theorem projection_matrix_refines_project (p : PSFModel) (photons : ℕ → ℕ → ℚ)
    (nspecSub nw : ℕ) (waves : ℕ → ℚ) (specmin : ℕ) (b : Box) (r c : ℕ)
    (hc : c < (b.xmax - b.xmin).toNat) :
    matVec (p.projection_matrix specmin nw waves b) (nspecSub * nw)
        (fun j => photons (j / nw) (j % nw)) (r * (b.xmax - b.xmin).toNat + c)
      = (p.project photons nspecSub nw waves specmin b).val r c := by
  have hnx : 0 < (b.xmax - b.xmin).toNat := Nat.pos_of_ne_zero (by omega)
  have hrowd : (r * (b.xmax - b.xmin).toNat + c) / (b.xmax - b.xmin).toNat = r := by
    rw [Nat.mul_comm r, Nat.mul_add_div hnx, Nat.div_eq_of_lt hc, Nat.add_zero]
  have hrowm : (r * (b.xmax - b.xmin).toNat + c) % (b.xmax - b.xmin).toNat = c := by
    rw [Nat.mul_comm r, Nat.mul_add_mod, Nat.mod_eq_of_lt hc]
  rw [matVec, PSFModel.project]
  dsimp only
  rw [sum_range_mul nspecSub nw]
  apply Finset.sum_congr rfl
  intro f hf
  apply Finset.sum_congr rfl
  intro k hk
  rw [Finset.mem_range] at hk
  have hcol : 0 < nw := Nat.pos_of_ne_zero (by omega)
  have hcd : (f * nw + k) / nw = f := by
    rw [Nat.mul_comm f, Nat.mul_add_div hcol, Nat.div_eq_of_lt hk, Nat.add_zero]
  have hcm : (f * nw + k) % nw = k := by
    rw [Nat.mul_comm f, Nat.mul_add_mod, Nat.mod_eq_of_lt hk]
  rw [PSFModel.projection_matrix, hrowd, hrowm, hcd, hcm, mul_comm]

/-- Witness for C1 on the concrete model with a 1×1 window and one sample. -/
theorem projection_matrix_refines_project_witness :
    matVec (psfW.projection_matrix 0 1 (fun _ => 1/2) ⟨3, 4, 5, 6⟩) (1 * 1)
        (fun j => (fun _ _ => (2 : ℚ)) (j / 1) (j % 1)) (0 * (4 - 3 : ℤ).toNat + 0)
      = (psfW.project (fun _ _ => 2) 1 1 (fun _ => 1/2) 0 ⟨3, 4, 5, 6⟩).val 0 0 :=
  projection_matrix_refines_project psfW (fun _ _ => 2) 1 1 (fun _ => 1/2) 0
    ⟨3, 4, 5, 6⟩ 0 0 (by norm_num)

end Specter
